import Mathlib

/-!
Verification of the StudyCoach task-prioritization and hour-allocation
engine, shallowly embedded from the TypeScript source (the Planner page
and the Dashboard page).

Modelling conventions:
* Calendar dates at day granularity are day numbers (`ℤ`); the source's
  `daysBetween a b` (which zeroes the time-of-day of both dates and
  divides the millisecond difference by one day) is `b - a`.
  A task's `dueDate : string` (the empty string meaning "no due date")
  becomes `Option ℤ`.
* JavaScript numbers are `ℚ`; `Math.round` is `⌊q + 1/2⌋` (round half
  toward positive infinity), `Math.floor` is `⌊·⌋`.
* Allocated hours and budgets are `ℕ`: the source only ever works with
  integral hour counts there (budget is `Math.round`ed and clamped to
  `[1,80]`, hour chunks are `min(1, remaining) = 1`), and the source's
  `Math.max(0, a - b)` is `ℕ` truncated subtraction.
* The per-day `Map` from task id to entry index (used by the source for
  O(1) merge) always points at the unique entry of the day holding that
  task id, because entries are pushed only when the id is absent; so
  `addOrMergeEntry` is embedded as "merge into the first entry with this
  task id, else append", which is the same behaviour.
* JavaScript's `Array.prototype.sort` with comparator `(a, b) => b.s -
  a.s` is a stable descending sort by the score key.  A stable sort for
  a total preorder is unique, so it is embedded as insertion sort with
  the relation `fun a b => key b ≤ key a` (an element is inserted after
  all earlier-placed elements of greater-or-equal key), which is stable
  and descending.
-/

namespace StudyCoach

/-- Task status, from the `TaskStatus` union type of the source. -/
inductive TaskStatus where
  | not_started : TaskStatus
  | in_progress : TaskStatus
  | done : TaskStatus
deriving DecidableEq, Repr

/-- A task, from the `Task` type of the source.  `dueDate` is `Option ℤ`
(day number); `none` models the empty string. -/
structure Task where
  id : String
  courseId : String
  courseName : String
  title : String
  dueDate : Option ℤ
  weight : ℚ
  difficulty : ℚ
  status : TaskStatus
deriving DecidableEq, Repr

/-- Source `clamp(min, v, max) = Math.max(min, Math.min(max, v))`, on
rationals. -/
def clamp (lo v hi : ℚ) : ℚ := max lo (min hi v)

/-- Source `clamp` specialised to integer arguments, used where the
clamped value is an integer (`Math.round` results). -/
def clampI (lo v hi : ℤ) : ℤ := max lo (min hi v)

/-- JavaScript `Math.round`: round half toward positive infinity. -/
def jsRound (q : ℚ) : ℤ := ⌊q + 1 / 2⌋

/-- JavaScript `x || d` on numbers: `x` unless `x` is zero (falsy), in
which case `d`. -/
def jsOr (x d : ℚ) : ℚ := if x = 0 then d else x

/-- Source `estimateHours(weight, difficulty) =
clamp(1, Math.round(weight * difficulty / 10), 10)`. -/
def estimateHours (weight difficulty : ℚ) : ℤ :=
  clampI 1 (jsRound (weight * difficulty / 10)) 10

/-- Source `isTaskOverdue(dueDate, today)`: false when `dueDate` is
empty, else `daysBetween(today, due) < 0`. -/
def isTaskOverdue (dueDate : Option ℤ) (today : ℤ) : Bool :=
  match dueDate with
  | none => false
  | some due => decide (due - today < 0)

/-- The days-until-due value computed inside the source's `scoreTask`:
`14` when there is no due date; otherwise `raw = daysBetween(today, due)`
becomes `3` when `raw ≤ 0` and `clamp(1, raw, 365)` otherwise. -/
def daysUntilForScore (dueDate : Option ℤ) (today : ℤ) : ℚ :=
  match dueDate with
  | none => 14
  | some due =>
    let raw : ℤ := due - today
    if raw ≤ 0 then 3 else clamp 1 (raw : ℚ) 365

/-- The score formula of the source's `scoreTask`, as a function of the
weight, the difficulty and the days-until-due value:
`(weight || 0) * (difficulty || 3) * (1 / daysUntil)`. -/
def scoreVal (weight difficulty daysUntil : ℚ) : ℚ :=
  jsOr weight 0 * jsOr difficulty 3 * (1 / daysUntil)

/-- Source `scoreTask(t, today)`. -/
def scoreTask (t : Task) (today : ℤ) : ℚ :=
  scoreVal t.weight t.difficulty (daysUntilForScore t.dueDate today)

/-- A plan entry, from the element type of `PlanItem.entries` in the
source. -/
structure PlanEntry where
  taskId : String
  courseId : String
  courseName : String
  title : String
  hours : ℕ
  dueDate : Option ℤ
  score : ℚ
  overdue : Bool
  status : TaskStatus
deriving DecidableEq, Repr

/-- A plan day, from the source's `PlanItem`.  The source's `dayLabel`
string is `DAY_NAMES[i]` plus the rendered date `weekStart + i`; it is
an injective rendering of the pair carried here as `dayIndex` and
`date`. -/
structure PlanDay where
  dayIndex : ℕ
  date : ℤ
  entries : List PlanEntry
  totalHours : ℕ
deriving DecidableEq, Repr

/-- A scored task of the Planner page: the `{ t, s, hoursNeeded,
overdue }` record built in the plan-computation effect. -/
structure ScoredItem where
  t : Task
  s : ℚ
  hoursNeeded : ℕ
  overdue : Bool
deriving DecidableEq, Repr

/-- The planner settings the allocation consumes: `hoursPerWeek`,
`studyDays` and `capOverdue` from the Planner page state. -/
structure PlannerConfig where
  hoursPerWeek : ℚ
  studyDays : List ℕ
  capOverdue : Bool
deriving DecidableEq, Repr

/-- The mutable local state of one plan computation: the day array, the
remaining budget, the overdue-hour counter, the per-task allocation map
(total by default 0, hence a function), and the rotating day cursor. -/
structure AllocState where
  days : List PlanDay
  budget : ℕ
  overdueAllocated : ℕ
  allocatedByTask : String → ℕ
  dayCursor : ℕ

/-- Replace the element at index `i` by `f` of it; out-of-range indices
leave the list unchanged. -/
def modifyAt {α : Type} (l : List α) (i : ℕ) (f : α → α) : List α :=
  match l, i with
  | [], _ => []
  | x :: xs, 0 => f x :: xs
  | x :: xs, n + 1 => x :: modifyAt xs n f

/-- Merge an entry into the first existing entry of the day holding the
same task id (summing hours, keeping the maximum score), or append it.
This is the behaviour of the source's `addOrMergeEntry`, whose index map
always points at the unique entry with the given task id. -/
def insertEntry (e : PlanEntry) : List PlanEntry → List PlanEntry
  | [] => [e]
  | x :: xs =>
    if x.taskId = e.taskId then
      { x with hours := x.hours + e.hours, score := max x.score e.score } :: xs
    else
      x :: insertEntry e xs

/-- Source `addOrMergeEntry`, acting on one day: merge or append the
entry and add its hours to the day's `totalHours`. -/
def addOrMergeEntry (day : PlanDay) (e : PlanEntry) : PlanDay :=
  { day with entries := insertEntry e day.entries
             totalHours := day.totalHours + e.hours }

/-- Source `canAllocateOverdue(isOverdue)`: a non-overdue item always
may allocate; an overdue item may while `overdueAllocated < overdueCap`.
`none` models the `Infinity` cap used when capping is disabled. -/
def canAllocateOverdue (overdueCap : Option ℕ) (overdueAllocated : ℕ)
    (isOverdue : Bool) : Bool :=
  !isOverdue ||
    (match overdueCap with
     | none => true
     | some c => decide (overdueAllocated < c))

/-- The plan entry created for one 1-hour chunk of a scored item. -/
def mkEntry (item : ScoredItem) (chunk : ℕ) : PlanEntry :=
  { taskId := item.t.id
    courseId := item.t.courseId
    courseName := item.t.courseName
    title := item.t.title
    hours := chunk
    dueDate := item.t.dueDate
    score := item.s
    overdue := item.overdue
    status := item.t.status }

/-- The body of one iteration of the source's `allocateHours` loop: put
a 1-hour chunk into the current day, decrement the budget, count the
hour as overdue when the item is overdue, record it in the per-task map,
and advance the day cursor (wrapping over the day count). -/
def placeOne (item : ScoredItem) (st : AllocState) : AllocState :=
  { days := modifyAt st.days st.dayCursor (fun d => addOrMergeEntry d (mkEntry item 1))
    budget := st.budget - 1
    overdueAllocated :=
      if item.overdue then st.overdueAllocated + 1 else st.overdueAllocated
    allocatedByTask := fun id =>
      if id = item.t.id then st.allocatedByTask id + 1 else st.allocatedByTask id
    dayCursor := (st.dayCursor + 1) % st.days.length }

/-- Source `allocateHours(item, hours)`: while hours remain, the budget
is positive and the day ring is non-empty, check the overdue cap (break
when it blocks) and place one 1-hour chunk (`chunk = min(1, remaining)`
is always 1). -/
def allocateHours (overdueCap : Option ℕ) (item : ScoredItem) :
    ℕ → AllocState → AllocState
  | 0, st => st
  | remaining + 1, st =>
    if 0 < st.budget ∧ 0 < st.days.length then
      if canAllocateOverdue overdueCap st.overdueAllocated item.overdue then
        allocateHours overdueCap item remaining (placeOne item st)
      else st
    else st

/-- The reservation pass of the source (the `for (const item of topN)`
loop): stop when the budget is exhausted; skip items blocked by the
overdue cap or already holding at least one hour; give the rest one
hour. -/
def reservationPass (overdueCap : Option ℕ) :
    List ScoredItem → AllocState → AllocState
  | [], st => st
  | item :: rest, st =>
    if st.budget = 0 then st
    else if !canAllocateOverdue overdueCap st.overdueAllocated item.overdue then
      reservationPass overdueCap rest st
    else if 1 ≤ st.allocatedByTask item.t.id then
      reservationPass overdueCap rest st
    else
      reservationPass overdueCap rest (allocateHours overdueCap item 1 st)

/-- The fill pass of the source (the `for (const item of scored)` loop):
stop when the budget is exhausted; skip items blocked by the overdue cap
or with no remaining need (`Math.max(0, hoursNeeded - already)` is `ℕ`
subtraction); place `min(remaining, budget)` hours for the rest. -/
def fillPass (overdueCap : Option ℕ) :
    List ScoredItem → AllocState → AllocState
  | [], st => st
  | item :: rest, st =>
    if st.budget = 0 then st
    else if !canAllocateOverdue overdueCap st.overdueAllocated item.overdue then
      fillPass overdueCap rest st
    else
      let remainingForTask := item.hoursNeeded - st.allocatedByTask item.t.id
      if remainingForTask = 0 then fillPass overdueCap rest st
      else fillPass overdueCap rest
        (allocateHours overdueCap item (min remainingForTask st.budget) st)

/-- Stable descending sort by a rational key: the behaviour of the
source's stable `Array.prototype.sort` with comparator
`(a, b) => key(b) - key(a)`. -/
def sortByKeyDesc {α : Type} (key : α → ℚ) (l : List α) : List α :=
  l.insertionSort (fun a b => key b ≤ key a)

/-- The scored-item list the Planner builds before sorting: active
tasks (status not done) annotated with overdue flag, score and estimated
hours. -/
def scoreAll (tasks : List Task) (today : ℤ) : List ScoredItem :=
  (tasks.filter (fun t => t.status ≠ TaskStatus.done)).map (fun t =>
    { t := t
      s := scoreTask t today
      hoursNeeded := (estimateHours t.weight t.difficulty).toNat
      overdue := isTaskOverdue t.dueDate today })

/-- The enabled-day list: `studyDays` when non-empty, otherwise all
seven weekdays. -/
def enabledDaysOf (studyDays : List ℕ) : List ℕ :=
  if 0 < studyDays.length then studyDays else [0, 1, 2, 3, 4, 5, 6]

/-- The whole plan computation of the Planner page: filter and score,
sort descending by score, initialise the days and the budget and the
overdue cap, run the reservation pass over the top 3 and the fill pass
over the full list, and finally sort each day's entries descending by
score. -/
def computePlan (tasks : List Task) (cfg : PlannerConfig)
    (today weekStart : ℤ) : List PlanDay :=
  let scored := sortByKeyDesc ScoredItem.s (scoreAll tasks today)
  let enabledDays := enabledDaysOf cfg.studyDays
  let days := enabledDays.map (fun i =>
    { dayIndex := i, date := weekStart + (i : ℤ), entries := [], totalHours := 0 })
  let budget := (clampI 1 (jsRound cfg.hoursPerWeek) 80).toNat
  let overdueCap : Option ℕ :=
    if cfg.capOverdue then some (⌊(budget : ℚ) * (6 / 10)⌋).toNat else none
  let st0 : AllocState :=
    { days := days, budget := budget, overdueAllocated := 0
      allocatedByTask := fun _ => 0, dayCursor := 0 }
  let st1 := reservationPass overdueCap (scored.take 3) st0
  let st2 := fillPass overdueCap scored st1
  st2.days.map (fun d =>
    { d with entries := sortByKeyDesc PlanEntry.score d.entries })

/-- Sum of `totalHours` over the plan days. -/
def sumTotal (days : List PlanDay) : ℕ :=
  (days.map PlanDay.totalHours).sum

/-- Hours of the entries of one day satisfying a predicate. -/
def entryHoursBy (p : PlanEntry → Bool) (l : List PlanEntry) : ℕ :=
  ((l.filter p).map PlanEntry.hours).sum

/-- Hours of the entries of all days satisfying a predicate. -/
def daysHoursBy (p : PlanEntry → Bool) (days : List PlanDay) : ℕ :=
  (days.map (fun d => entryHoursBy p d.entries)).sum

/-- Total hours over all plan days carried by entries flagged overdue. -/
def overdueHours (days : List PlanDay) : ℕ :=
  daysHoursBy (fun e => e.overdue) days

/-- Total hours over all plan days carried by entries of one task id. -/
def taskHours (id : String) (days : List PlanDay) : ℕ :=
  daysHoursBy (fun e => decide (e.taskId = id)) days

/-- The sorted scored-item list the Planner allocates from. -/
def plannerScored (tasks : List Task) (today : ℤ) : List ScoredItem :=
  sortByKeyDesc ScoredItem.s (scoreAll tasks today)

/-- The weekly budget: `clamp(1, Math.round(hoursPerWeek), 80)`. -/
def planBudget (cfg : PlannerConfig) : ℕ :=
  (clampI 1 (jsRound cfg.hoursPerWeek) 80).toNat

/-- The overdue cap: `Math.floor(budget * 0.6)` when capping is enabled,
unbounded (`none`, the source's `Infinity`) otherwise. -/
def planCap (cfg : PlannerConfig) : Option ℕ :=
  if cfg.capOverdue then some (⌊(planBudget cfg : ℚ) * (6 / 10)⌋).toNat
  else none

/-- The fresh empty day list of one plan computation. -/
def initDays (cfg : PlannerConfig) (weekStart : ℤ) : List PlanDay :=
  (enabledDaysOf cfg.studyDays).map (fun i =>
    { dayIndex := i, date := weekStart + (i : ℤ), entries := [], totalHours := 0 })

/-- The initial allocation state of one plan computation. -/
def initState (cfg : PlannerConfig) (weekStart : ℤ) : AllocState :=
  { days := initDays cfg weekStart, budget := planBudget cfg
    overdueAllocated := 0, allocatedByTask := fun _ => 0, dayCursor := 0 }

/-- All plan entries agree with the scored-item list on overdue flags:
any entry whose task id matches an item's task id carries that item's
overdue flag.  This holds throughout a run when task ids are unique. -/
def FlagsOk (items : List ScoredItem) (days : List PlanDay) : Prop :=
  ∀ d ∈ days, ∀ x ∈ d.entries, ∀ it ∈ items,
    it.t.id = x.taskId → it.overdue = x.overdue

/-- A scored task of the Dashboard page's `plannedThisWeek` memo: the
`{ t, s, hoursNeeded }` record it builds (it carries no overdue flag). -/
structure DashItem where
  t : Task
  s : ℚ
  hoursNeeded : ℕ
deriving DecidableEq, Repr

/-- The local state of the Dashboard's `plannedThisWeek` computation:
remaining budget, per-task allocation map, running total, day cursor. -/
structure DashState where
  budget : ℕ
  allocatedByTask : String → ℕ
  total : ℕ
  cursor : ℕ

/-- The Dashboard's `alloc(taskId, amount)` helper: record the amount in
the per-task map, add it to the total, advance the cursor modulo the
enabled-day count.  (The budget is decremented at the call sites.) -/
def dashAlloc (dayCount : ℕ) (taskId : String) (amount : ℕ)
    (st : DashState) : DashState :=
  { st with
    allocatedByTask := fun id =>
      if id = taskId then st.allocatedByTask id + amount
      else st.allocatedByTask id
    total := st.total + amount
    cursor := (st.cursor + 1) % dayCount }

/-- The Dashboard's reservation loop over `scored.slice(0, 3)`: stop on
an exhausted budget, skip items already holding an hour, otherwise spend
one budget hour on the item.  Unlike the Planner it never consults an
overdue cap. -/
def dashReservation (dayCount : ℕ) :
    List DashItem → DashState → DashState
  | [], st => st
  | item :: rest, st =>
    if st.budget = 0 then st
    else if 1 ≤ st.allocatedByTask item.t.id then
      dashReservation dayCount rest st
    else
      dashReservation dayCount rest
        (dashAlloc dayCount item.t.id 1 { st with budget := st.budget - 1 })

/-- The Dashboard's fill loop over the full scored list: stop on an
exhausted budget, skip items with no remaining need, otherwise spend
`min(remaining, budget)` at once.  Again there is no overdue cap. -/
def dashFill (dayCount : ℕ) : List DashItem → DashState → DashState
  | [], st => st
  | item :: rest, st =>
    if st.budget = 0 then st
    else
      let remaining := item.hoursNeeded - st.allocatedByTask item.t.id
      if remaining = 0 then dashFill dayCount rest st
      else
        let take := min remaining st.budget
        dashFill dayCount rest
          (dashAlloc dayCount item.t.id take { st with budget := st.budget - take })

/-- The Dashboard page's `plannedThisWeek` memo: same filtering, scoring,
estimation, sorting and budget clamping as the Planner, followed by the
two uncapped passes; it returns only the total allocated hours. -/
def plannedThisWeek (tasks : List Task) (hoursPerWeek : ℚ)
    (studyDays : List ℕ) (today : ℤ) : ℕ :=
  let enabledDays := enabledDaysOf studyDays
  let dayCount := enabledDays.length
  let budget := (clampI 1 (jsRound hoursPerWeek) 80).toNat
  let scored := sortByKeyDesc DashItem.s
    ((tasks.filter (fun t => t.status ≠ TaskStatus.done)).map (fun t =>
      { t := t
        s := scoreTask t today
        hoursNeeded := (estimateHours t.weight t.difficulty).toNat }))
  let st0 : DashState :=
    { budget := budget, allocatedByTask := fun _ => 0, total := 0, cursor := 0 }
  let st1 := dashReservation dayCount (scored.take 3) st0
  let st2 := dashFill dayCount scored st1
  st2.total

/-- `jsOr x 0` is just `x`: both branches agree when `x = 0`. -/
theorem jsOr_zero (x : ℚ) : jsOr x 0 = x := by
  unfold jsOr; split <;> simp_all

theorem jsOr_of_ne (x d : ℚ) (hx : x ≠ 0) : jsOr x d = x := by
  unfold jsOr; simp [hx]

/-- The days-until-due value is always at least 1. -/
theorem one_le_daysUntilForScore (dueDate : Option ℤ) (today : ℤ) :
    1 ≤ daysUntilForScore dueDate today := by
  unfold daysUntilForScore
  match dueDate with
  | none => norm_num
  | some due =>
    simp only
    split
    · norm_num
    · unfold clamp
      exact le_max_left 1 _

theorem length_modifyAt {α : Type} (l : List α) (i : ℕ) (f : α → α) :
    (modifyAt l i f).length = l.length := by
  induction l generalizing i with
  | nil => rfl
  | cons x xs ih =>
    cases i with
    | zero => rfl
    | succ n => simpa [modifyAt] using ih n

theorem mem_modifyAt {α : Type} {l : List α} {i : ℕ} {f : α → α} {y : α}
    (hy : y ∈ modifyAt l i f) : y ∈ l ∨ ∃ x ∈ l, y = f x := by
  induction l generalizing i with
  | nil => simp [modifyAt] at hy
  | cons x xs ih =>
    cases i with
    | zero =>
      rcases List.mem_cons.mp hy with h | h
      · exact Or.inr ⟨x, List.mem_cons_self x xs, h⟩
      · exact Or.inl (List.mem_cons_of_mem x h)
    | succ n =>
      rcases List.mem_cons.mp hy with h | h
      · exact Or.inl (h ▸ List.mem_cons_self x xs)
      · rcases ih h with h' | ⟨z, hz, hzy⟩
        · exact Or.inl (List.mem_cons_of_mem x h')
        · exact Or.inr ⟨z, List.mem_cons_of_mem x hz, hzy⟩

/-- Changing the element at a valid index by a function that raises the
measure `g` by exactly `k` raises the list's `g`-sum by exactly `k`. -/
theorem mapSum_modifyAt {α : Type} (g : α → ℕ) (f : α → α) (k : ℕ)
    (l : List α) (i : ℕ) (hi : i < l.length)
    (hf : ∀ x ∈ l, g (f x) = g x + k) :
    ((modifyAt l i f).map g).sum = (l.map g).sum + k := by
  induction l generalizing i with
  | nil => simp at hi
  | cons x xs ih =>
    cases i with
    | zero =>
      simp only [modifyAt, List.map_cons, List.sum_cons,
        hf x (List.mem_cons_self x xs)]
      omega
    | succ n =>
      have hn : n < xs.length := by simpa using hi
      have := ih n hn (fun y hy => hf y (List.mem_cons_of_mem x hy))
      simp only [modifyAt, List.map_cons, List.sum_cons, this]
      omega

theorem entryHoursBy_nil (p : PlanEntry → Bool) : entryHoursBy p [] = 0 := rfl

theorem entryHoursBy_cons (p : PlanEntry → Bool) (x : PlanEntry)
    (l : List PlanEntry) :
    entryHoursBy p (x :: l) =
      (if p x = true then x.hours else 0) + entryHoursBy p l := by
  simp only [entryHoursBy, List.filter_cons]
  split <;> simp

theorem entryHoursBy_insertEntry_task (e : PlanEntry) (l : List PlanEntry)
    (id : String) :
    entryHoursBy (fun x => decide (x.taskId = id)) (insertEntry e l) =
      entryHoursBy (fun x => decide (x.taskId = id)) l +
        (if e.taskId = id then e.hours else 0) := by
  induction l with
  | nil =>
    rw [insertEntry, entryHoursBy_cons]
    by_cases h : e.taskId = id <;> simp [entryHoursBy, h]
  | cons x xs ih =>
    rw [insertEntry]
    by_cases hx : x.taskId = e.taskId
    · rw [if_pos hx, entryHoursBy_cons, entryHoursBy_cons]
      by_cases h : e.taskId = id
      · have hxid : x.taskId = id := hx.trans h
        simp [hxid, h] <;> omega
      · have hxid : ¬ x.taskId = id := fun hc => h (hx ▸ hc)
        simp [hxid, h] <;> omega
    · rw [if_neg hx, entryHoursBy_cons, entryHoursBy_cons, ih]
      omega

theorem entryHoursBy_insertEntry_overdue (e : PlanEntry) (l : List PlanEntry)
    (hcons : ∀ x ∈ l, x.taskId = e.taskId → x.overdue = e.overdue) :
    entryHoursBy (fun x => x.overdue) (insertEntry e l) =
      entryHoursBy (fun x => x.overdue) l +
        (if e.overdue then e.hours else 0) := by
  induction l with
  | nil =>
    rw [insertEntry, entryHoursBy_cons]
    cases h : e.overdue <;> simp [entryHoursBy, h]
  | cons x xs ih =>
    rw [insertEntry]
    by_cases hx : x.taskId = e.taskId
    · have hov : x.overdue = e.overdue := hcons x (List.mem_cons_self x xs) hx
      rw [if_pos hx, entryHoursBy_cons, entryHoursBy_cons]
      cases h : e.overdue <;> simp [hov, h] <;> omega
    · have ih' := ih (fun y hy => hcons y (List.mem_cons_of_mem x hy))
      rw [if_neg hx, entryHoursBy_cons, entryHoursBy_cons, ih']
      omega

/-- Every entry of `insertEntry e l` carries the task id and overdue
flag of either `e` or some entry of `l`. -/
theorem insertEntry_mem {e : PlanEntry} {l : List PlanEntry} {y : PlanEntry}
    (hy : y ∈ insertEntry e l) :
    (y.taskId = e.taskId ∧ y.overdue = e.overdue) ∨
      ∃ x ∈ l, y.taskId = x.taskId ∧ y.overdue = x.overdue := by
  induction l with
  | nil =>
    rw [insertEntry] at hy
    simp only [List.mem_singleton] at hy
    exact Or.inl (by simp [hy])
  | cons x xs ih =>
    rw [insertEntry] at hy
    by_cases hx : x.taskId = e.taskId
    · rw [if_pos hx] at hy
      rcases List.mem_cons.mp hy with hy | hy
      · exact Or.inr ⟨x, List.mem_cons_self x xs, by simp [hy]⟩
      · exact Or.inr ⟨y, List.mem_cons_of_mem x hy, rfl, rfl⟩
    · rw [if_neg hx] at hy
      rcases List.mem_cons.mp hy with hy | hy
      · exact Or.inr ⟨x, List.mem_cons_self x xs, by simp [hy]⟩
      · rcases ih hy with h | ⟨z, hz, hzy⟩
        · exact Or.inl h
        · exact Or.inr ⟨z, List.mem_cons_of_mem x hz, hzy⟩

theorem placeOne_budget (item : ScoredItem) (st : AllocState) :
    (placeOne item st).budget = st.budget - 1 := rfl

theorem placeOne_overdueAllocated (item : ScoredItem) (st : AllocState) :
    (placeOne item st).overdueAllocated =
      if item.overdue then st.overdueAllocated + 1 else st.overdueAllocated := rfl

theorem placeOne_allocated (item : ScoredItem) (st : AllocState) (id : String) :
    (placeOne item st).allocatedByTask id =
      if id = item.t.id then st.allocatedByTask id + 1
      else st.allocatedByTask id := rfl

theorem placeOne_days_length (item : ScoredItem) (st : AllocState) :
    (placeOne item st).days.length = st.days.length :=
  length_modifyAt st.days st.dayCursor _

theorem placeOne_cursor_lt (item : ScoredItem) (st : AllocState)
    (h : 0 < st.days.length) :
    (placeOne item st).dayCursor < (placeOne item st).days.length := by
  rw [placeOne_days_length]
  exact Nat.mod_lt _ h

theorem placeOne_sumTotal (item : ScoredItem) (st : AllocState)
    (hcur : st.dayCursor < st.days.length) :
    sumTotal (placeOne item st).days = sumTotal st.days + 1 := by
  unfold sumTotal placeOne
  exact mapSum_modifyAt PlanDay.totalHours _ 1 st.days st.dayCursor hcur
    (fun d _ => rfl)

theorem placeOne_taskHours (item : ScoredItem) (st : AllocState)
    (hcur : st.dayCursor < st.days.length) (id : String) :
    taskHours id (placeOne item st).days =
      taskHours id st.days + (if item.t.id = id then 1 else 0) := by
  unfold taskHours daysHoursBy placeOne
  refine mapSum_modifyAt _ _ _ st.days st.dayCursor hcur (fun d _ => ?_)
  show entryHoursBy _ (insertEntry (mkEntry item 1) d.entries) = _
  rw [entryHoursBy_insertEntry_task (mkEntry item 1) d.entries id]
  rfl

theorem placeOne_overdueHours (item : ScoredItem) (st : AllocState)
    (hcur : st.dayCursor < st.days.length)
    (hloc : ∀ d ∈ st.days, ∀ x ∈ d.entries,
      x.taskId = item.t.id → x.overdue = item.overdue) :
    overdueHours (placeOne item st).days =
      overdueHours st.days + (if item.overdue then 1 else 0) := by
  unfold overdueHours daysHoursBy placeOne
  refine mapSum_modifyAt _ _ _ st.days st.dayCursor hcur (fun d hd => ?_)
  show entryHoursBy _ (insertEntry (mkEntry item 1) d.entries) = _
  rw [entryHoursBy_insertEntry_overdue (mkEntry item 1) d.entries
    (fun x hx hxid => hloc d hd x hx hxid)]
  rfl

theorem placeOne_FlagsOk (item : ScoredItem) (st : AllocState)
    (items : List ScoredItem) (hflags : FlagsOk items st.days)
    (hid : ∀ it ∈ items, it.t.id = item.t.id → it.overdue = item.overdue) :
    FlagsOk items (placeOne item st).days := by
  intro d' hd' x hx it hit hitid
  rcases mem_modifyAt hd' with hd | ⟨d, hd, rfl⟩
  · exact hflags d' hd x hx it hit hitid
  · rcases insertEntry_mem hx with ⟨hxe, hoe⟩ | ⟨y, hy, hxy, hoy⟩
    · rw [hoe]
      exact hid it hit (by rw [hitid, hxe]; rfl)
    · rw [hoy]
      exact hflags d hd y hy it hit (by rw [hitid, hxy])

theorem canAllocateOverdue_none (a : ℕ) (o : Bool) :
    canAllocateOverdue none a o = true := by
  cases o <;> rfl

theorem canAllocateOverdue_some_of_overdue {c a : ℕ}
    (h : canAllocateOverdue (some c) a true = true) : a < c := by
  simpa [canAllocateOverdue] using h

/-- Core facts about one `allocateHours` call, needing only a valid day
cursor: the day count and cursor validity are preserved, hours placed
plus remaining budget is conserved, the budget never grows, the
guarded overdue counter never passes a `some` cap, the item's recorded
allocation grows by at most the requested hours while other tasks'
records are untouched, and per-task plan hours stay bounded by the
recorded allocations. -/
theorem allocateHours_base (cap : Option ℕ) (item : ScoredItem) (h : ℕ)
    (st : AllocState) (hcur : st.dayCursor < st.days.length) :
    (allocateHours cap item h st).days.length = st.days.length ∧
    (allocateHours cap item h st).dayCursor <
      (allocateHours cap item h st).days.length ∧
    sumTotal (allocateHours cap item h st).days +
      (allocateHours cap item h st).budget = sumTotal st.days + st.budget ∧
    (allocateHours cap item h st).budget ≤ st.budget ∧
    (∀ c, cap = some c → st.overdueAllocated ≤ c →
      (allocateHours cap item h st).overdueAllocated ≤ c) ∧
    (allocateHours cap item h st).allocatedByTask item.t.id ≤
      st.allocatedByTask item.t.id + h ∧
    (∀ id, id ≠ item.t.id →
      (allocateHours cap item h st).allocatedByTask id =
        st.allocatedByTask id) ∧
    (∀ id, taskHours id st.days ≤ st.allocatedByTask id →
      taskHours id (allocateHours cap item h st).days ≤
        (allocateHours cap item h st).allocatedByTask id) := by
  induction h generalizing st with
  | zero =>
    exact ⟨rfl, hcur, rfl, le_refl _, fun c hc hle => hle,
      Nat.le_add_right _ 0, fun id _ => rfl, fun id hle => hle⟩
  | succ n ih =>
    rw [allocateHours]
    by_cases hg : 0 < st.budget ∧ 0 < st.days.length
    · rw [if_pos hg]
      by_cases hca : canAllocateOverdue cap st.overdueAllocated item.overdue = true
      · rw [if_pos hca]
        have hcur1 : (placeOne item st).dayCursor <
            (placeOne item st).days.length := placeOne_cursor_lt item st hg.2
        obtain ⟨l1, c1, s1, b1, o1, a1, a2, t1⟩ := ih (placeOne item st) hcur1
        have hlen := placeOne_days_length item st
        have hbud := placeOne_budget item st
        have hsum := placeOne_sumTotal item st hcur
        refine ⟨l1.trans hlen, c1, ?_, ?_, ?_, ?_, ?_, ?_⟩
        · rw [s1, hsum, hbud]; omega
        · rw [hbud] at b1; omega
        · intro c hc hle
          refine o1 c hc ?_
          rw [placeOne_overdueAllocated]
          cases ho : item.overdue
          · simpa using hle
          · have := canAllocateOverdue_some_of_overdue (hc ▸ ho ▸ hca)
            simpa using this
        · have ha := placeOne_allocated item st item.t.id
          rw [if_pos rfl] at ha
          rw [ha] at a1; omega
        · intro id hne
          have ha := placeOne_allocated item st id
          rw [if_neg hne] at ha
          rw [a2 id hne, ha]
        · intro id hle
          refine t1 id ?_
          rw [placeOne_taskHours item st hcur id, placeOne_allocated item st id]
          by_cases hid : id = item.t.id
          · rw [if_pos hid, if_pos (hid.symm)]; omega
          · rw [if_neg hid, if_neg (fun hc => hid hc.symm)]; omega
      · rw [if_neg hca]
        exact ⟨rfl, hcur, rfl, le_refl _, fun c hc hle => hle,
          Nat.le_add_right _ _, fun id _ => rfl, fun id hle => hle⟩
    · rw [if_neg hg]
      exact ⟨rfl, hcur, rfl, le_refl _, fun c hc hle => hle,
        Nat.le_add_right _ _, fun id _ => rfl, fun id hle => hle⟩

/-- Overdue accounting through one `allocateHours` call: flag
consistency of the plan entries is preserved, and the overdue plan hours
stay below the overdue counter. -/
theorem allocateHours_overdue (cap : Option ℕ) (item : ScoredItem) (h : ℕ)
    (st : AllocState) (items : List ScoredItem)
    (hcur : st.dayCursor < st.days.length) (hitem : item ∈ items)
    (hcoh : ∀ it1 ∈ items, ∀ it2 ∈ items,
      it1.t.id = it2.t.id → it1.overdue = it2.overdue)
    (hflags : FlagsOk items st.days)
    (hosum : overdueHours st.days ≤ st.overdueAllocated) :
    FlagsOk items (allocateHours cap item h st).days ∧
    overdueHours (allocateHours cap item h st).days ≤
      (allocateHours cap item h st).overdueAllocated := by
  induction h generalizing st with
  | zero => exact ⟨hflags, hosum⟩
  | succ n ih =>
    rw [allocateHours]
    by_cases hg : 0 < st.budget ∧ 0 < st.days.length
    · rw [if_pos hg]
      by_cases hca : canAllocateOverdue cap st.overdueAllocated item.overdue = true
      · rw [if_pos hca]
        have hcur1 : (placeOne item st).dayCursor <
            (placeOne item st).days.length := placeOne_cursor_lt item st hg.2
        have hloc : ∀ d ∈ st.days, ∀ x ∈ d.entries,
            x.taskId = item.t.id → x.overdue = item.overdue := by
          intro d hd x hx hxe
          exact (hflags d hd x hx item hitem hxe.symm).symm
        have hflags1 : FlagsOk items (placeOne item st).days :=
          placeOne_FlagsOk item st items hflags
            (fun it hit he => hcoh it hit item hitem he)
        have hosum1 : overdueHours (placeOne item st).days ≤
            (placeOne item st).overdueAllocated := by
          rw [placeOne_overdueHours item st hcur hloc,
            placeOne_overdueAllocated]
          cases item.overdue <;> simpa using hosum
        exact ih (placeOne item st) hcur1 hflags1 hosum1
      · rw [if_neg hca]; exact ⟨hflags, hosum⟩
    · rw [if_neg hg]; exact ⟨hflags, hosum⟩

/-- With no overdue cap, `allocateHours` places exactly
`min h budget` hours: the budget drops by that amount, the item's
recorded allocation and the plan's total hours grow by it, and nothing
else changes. -/
theorem allocateHours_nocap (item : ScoredItem) (h : ℕ) (st : AllocState)
    (hcur : st.dayCursor < st.days.length) :
    (allocateHours none item h st).budget = st.budget - min h st.budget ∧
    (allocateHours none item h st).allocatedByTask item.t.id =
      st.allocatedByTask item.t.id + min h st.budget ∧
    (∀ id, id ≠ item.t.id →
      (allocateHours none item h st).allocatedByTask id =
        st.allocatedByTask id) ∧
    sumTotal (allocateHours none item h st).days =
      sumTotal st.days + min h st.budget ∧
    (allocateHours none item h st).days.length = st.days.length ∧
    (allocateHours none item h st).dayCursor <
      (allocateHours none item h st).days.length := by
  induction h generalizing st with
  | zero =>
    exact ⟨by simp [allocateHours], by simp [allocateHours], fun id _ => rfl,
      by simp [allocateHours], rfl, hcur⟩
  | succ n ih =>
    rw [allocateHours]
    have hlen0 : 0 < st.days.length := lt_of_le_of_lt (Nat.zero_le _) hcur
    by_cases hb : 0 < st.budget
    · rw [if_pos ⟨hb, hlen0⟩, if_pos (canAllocateOverdue_none _ _)]
      have hcur1 : (placeOne item st).dayCursor <
          (placeOne item st).days.length := placeOne_cursor_lt item st hlen0
      obtain ⟨b1, a1, a2, s1, l1, c1⟩ := ih (placeOne item st) hcur1
      have hbud := placeOne_budget item st
      have hsum := placeOne_sumTotal item st hcur
      have ha := placeOne_allocated item st item.t.id
      rw [if_pos rfl] at ha
      refine ⟨?_, ?_, ?_, ?_, l1.trans (placeOne_days_length item st), c1⟩
      · rw [b1, hbud]; omega
      · rw [a1, ha, hbud]; omega
      · intro id hne
        have ha' := placeOne_allocated item st id
        rw [if_neg hne] at ha'
        rw [a2 id hne, ha']
      · rw [s1, hsum, hbud]; omega
    · have hb0 : st.budget = 0 := Nat.eq_zero_of_not_pos hb
      rw [if_neg (fun hc => hb hc.1)]
      exact ⟨by simp [hb0], by simp [hb0], fun id _ => rfl, by simp [hb0],
        rfl, hcur⟩

/-- The reservation pass preserves the day count, cursor validity and
the conservation of hours placed plus budget. -/
theorem reservationPass_conserve (cap : Option ℕ) (l : List ScoredItem) :
    ∀ st : AllocState, st.dayCursor < st.days.length →
      (reservationPass cap l st).days.length = st.days.length ∧
      (reservationPass cap l st).dayCursor <
        (reservationPass cap l st).days.length ∧
      sumTotal (reservationPass cap l st).days +
        (reservationPass cap l st).budget = sumTotal st.days + st.budget := by
  induction l with
  | nil => exact fun st hcur => ⟨rfl, hcur, rfl⟩
  | cons item rest ih =>
    intro st hcur
    rw [reservationPass]
    by_cases h0 : st.budget = 0
    · rw [if_pos h0]; exact ⟨rfl, hcur, rfl⟩
    · rw [if_neg h0]
      by_cases hca :
          (!canAllocateOverdue cap st.overdueAllocated item.overdue) = true
      · rw [if_pos hca]; exact ih st hcur
      · rw [if_neg hca]
        by_cases h1 : 1 ≤ st.allocatedByTask item.t.id
        · rw [if_pos h1]; exact ih st hcur
        · rw [if_neg h1]
          obtain ⟨l1, c1, s1, -⟩ := allocateHours_base cap item 1 st hcur
          obtain ⟨l2, c2, s2⟩ := ih (allocateHours cap item 1 st) c1
          exact ⟨l2.trans l1, c2, s2.trans s1⟩

/-- The fill pass preserves the day count, cursor validity and the
conservation of hours placed plus budget. -/
theorem fillPass_conserve (cap : Option ℕ) (l : List ScoredItem) :
    ∀ st : AllocState, st.dayCursor < st.days.length →
      (fillPass cap l st).days.length = st.days.length ∧
      (fillPass cap l st).dayCursor < (fillPass cap l st).days.length ∧
      sumTotal (fillPass cap l st).days + (fillPass cap l st).budget =
        sumTotal st.days + st.budget := by
  induction l with
  | nil => exact fun st hcur => ⟨rfl, hcur, rfl⟩
  | cons item rest ih =>
    intro st hcur
    rw [fillPass]
    by_cases h0 : st.budget = 0
    · rw [if_pos h0]; exact ⟨rfl, hcur, rfl⟩
    · rw [if_neg h0]
      by_cases hca :
          (!canAllocateOverdue cap st.overdueAllocated item.overdue) = true
      · rw [if_pos hca]; exact ih st hcur
      · rw [if_neg hca]
        by_cases hr : item.hoursNeeded - st.allocatedByTask item.t.id = 0
        · simp only [hr, if_pos]
          exact ih st hcur
        · simp only [hr, if_neg, if_false]
          obtain ⟨l1, c1, s1, -⟩ := allocateHours_base cap item
            (min (item.hoursNeeded - st.allocatedByTask item.t.id) st.budget)
            st hcur
          obtain ⟨l2, c2, s2⟩ := ih _ c1
          exact ⟨l2.trans l1, c2, s2.trans s1⟩

/-- The allocation invariants through the reservation pass: entry flags
stay consistent with the (id-injective) scored-item list, overdue plan
hours stay below the overdue counter, the overdue counter respects a
`some` cap, per-task plan hours stay below the recorded allocations,
recorded allocations stay below each item's estimated need, and ids
foreign to the item list stay unallocated. -/
theorem reservationPass_inv (cap : Option ℕ) (items : List ScoredItem)
    (hinj : ∀ it1 ∈ items, ∀ it2 ∈ items, it1.t.id = it2.t.id → it1 = it2)
    (hneed1 : ∀ it ∈ items, 1 ≤ it.hoursNeeded) (l : List ScoredItem) :
    ∀ st : AllocState, (∀ x ∈ l, x ∈ items) →
      st.dayCursor < st.days.length →
      FlagsOk items st.days →
      overdueHours st.days ≤ st.overdueAllocated →
      (∀ c, cap = some c → st.overdueAllocated ≤ c) →
      (∀ id, taskHours id st.days ≤ st.allocatedByTask id) →
      (∀ it ∈ items, st.allocatedByTask it.t.id ≤ it.hoursNeeded) →
      (∀ id, (∀ it ∈ items, it.t.id ≠ id) → st.allocatedByTask id = 0) →
      FlagsOk items (reservationPass cap l st).days ∧
      overdueHours (reservationPass cap l st).days ≤
        (reservationPass cap l st).overdueAllocated ∧
      (∀ c, cap = some c → (reservationPass cap l st).overdueAllocated ≤ c) ∧
      (∀ id, taskHours id (reservationPass cap l st).days ≤
        (reservationPass cap l st).allocatedByTask id) ∧
      (∀ it ∈ items, (reservationPass cap l st).allocatedByTask it.t.id ≤
        it.hoursNeeded) ∧
      (∀ id, (∀ it ∈ items, it.t.id ≠ id) →
        (reservationPass cap l st).allocatedByTask id = 0) := by
  induction l with
  | nil =>
    intro st _ _ hflags hosum hcap htsum htneed htzero
    exact ⟨hflags, hosum, hcap, htsum, htneed, htzero⟩
  | cons item rest ih =>
    intro st hsub hcur hflags hosum hcap htsum htneed htzero
    have hsub' : ∀ x ∈ rest, x ∈ items :=
      fun x hx => hsub x (List.mem_cons_of_mem item hx)
    have hitem : item ∈ items := hsub item (List.mem_cons_self item rest)
    rw [reservationPass]
    by_cases h0 : st.budget = 0
    · rw [if_pos h0]; exact ⟨hflags, hosum, hcap, htsum, htneed, htzero⟩
    · rw [if_neg h0]
      by_cases hca :
          (!canAllocateOverdue cap st.overdueAllocated item.overdue) = true
      · rw [if_pos hca]
        exact ih st hsub' hcur hflags hosum hcap htsum htneed htzero
      · rw [if_neg hca]
        by_cases h1 : 1 ≤ st.allocatedByTask item.t.id
        · rw [if_pos h1]
          exact ih st hsub' hcur hflags hosum hcap htsum htneed htzero
        · rw [if_neg h1]
          obtain ⟨l1, c1, s1, b1, o1, a1, a2, t1⟩ :=
            allocateHours_base cap item 1 st hcur
          obtain ⟨hflags1, hosum1⟩ := allocateHours_overdue cap item 1 st
            items hcur hitem
            (fun it1 h1' it2 h2' he => by rw [hinj it1 h1' it2 h2' he])
            hflags hosum
          have halloc0 : st.allocatedByTask item.t.id = 0 := by omega
          refine ih (allocateHours cap item 1 st) hsub' c1 hflags1 hosum1
            (fun c hc => o1 c hc (hcap c hc)) (fun id => t1 id (htsum id))
            ?_ ?_
          · intro it hit
            by_cases hide : it.t.id = item.t.id
            · have : it = item := hinj it hit item hitem hide
              subst this
              have := hneed1 it hit
              omega
            · rw [a2 it.t.id hide]
              exact htneed it hit
          · intro id hforeign
            have hne : id ≠ item.t.id :=
              fun hc => hforeign item hitem hc.symm
            rw [a2 id hne]
            exact htzero id hforeign

/-- The allocation invariants through the fill pass (same invariants as
`reservationPass_inv`). -/
theorem fillPass_inv (cap : Option ℕ) (items : List ScoredItem)
    (hinj : ∀ it1 ∈ items, ∀ it2 ∈ items, it1.t.id = it2.t.id → it1 = it2)
    (hneed1 : ∀ it ∈ items, 1 ≤ it.hoursNeeded) (l : List ScoredItem) :
    ∀ st : AllocState, (∀ x ∈ l, x ∈ items) →
      st.dayCursor < st.days.length →
      FlagsOk items st.days →
      overdueHours st.days ≤ st.overdueAllocated →
      (∀ c, cap = some c → st.overdueAllocated ≤ c) →
      (∀ id, taskHours id st.days ≤ st.allocatedByTask id) →
      (∀ it ∈ items, st.allocatedByTask it.t.id ≤ it.hoursNeeded) →
      (∀ id, (∀ it ∈ items, it.t.id ≠ id) → st.allocatedByTask id = 0) →
      FlagsOk items (fillPass cap l st).days ∧
      overdueHours (fillPass cap l st).days ≤
        (fillPass cap l st).overdueAllocated ∧
      (∀ c, cap = some c → (fillPass cap l st).overdueAllocated ≤ c) ∧
      (∀ id, taskHours id (fillPass cap l st).days ≤
        (fillPass cap l st).allocatedByTask id) ∧
      (∀ it ∈ items, (fillPass cap l st).allocatedByTask it.t.id ≤
        it.hoursNeeded) ∧
      (∀ id, (∀ it ∈ items, it.t.id ≠ id) →
        (fillPass cap l st).allocatedByTask id = 0) := by
  induction l with
  | nil =>
    intro st _ _ hflags hosum hcap htsum htneed htzero
    exact ⟨hflags, hosum, hcap, htsum, htneed, htzero⟩
  | cons item rest ih =>
    intro st hsub hcur hflags hosum hcap htsum htneed htzero
    have hsub' : ∀ x ∈ rest, x ∈ items :=
      fun x hx => hsub x (List.mem_cons_of_mem item hx)
    have hitem : item ∈ items := hsub item (List.mem_cons_self item rest)
    rw [fillPass]
    by_cases h0 : st.budget = 0
    · rw [if_pos h0]; exact ⟨hflags, hosum, hcap, htsum, htneed, htzero⟩
    · rw [if_neg h0]
      by_cases hca :
          (!canAllocateOverdue cap st.overdueAllocated item.overdue) = true
      · rw [if_pos hca]
        exact ih st hsub' hcur hflags hosum hcap htsum htneed htzero
      · rw [if_neg hca]
        by_cases hr : item.hoursNeeded - st.allocatedByTask item.t.id = 0
        · simp only [hr, if_pos]
          exact ih st hsub' hcur hflags hosum hcap htsum htneed htzero
        · simp only [hr, if_neg, if_false]
          obtain ⟨l1, c1, s1, b1, o1, a1, a2, t1⟩ := allocateHours_base cap
            item (min (item.hoursNeeded - st.allocatedByTask item.t.id)
              st.budget) st hcur
          obtain ⟨hflags1, hosum1⟩ := allocateHours_overdue cap item
            (min (item.hoursNeeded - st.allocatedByTask item.t.id) st.budget)
            st items hcur hitem
            (fun it1 h1' it2 h2' he => by rw [hinj it1 h1' it2 h2' he])
            hflags hosum
          refine ih _ hsub' c1 hflags1 hosum1
            (fun c hc => o1 c hc (hcap c hc)) (fun id => t1 id (htsum id))
            ?_ ?_
          · intro it hit
            by_cases hide : it.t.id = item.t.id
            · have heq : it = item := hinj it hit item hitem hide
              subst heq
              have hb := htneed it hit
              rw [hide] at a1 ⊢
              omega
            · rw [a2 it.t.id hide]
              exact htneed it hit
          · intro id hforeign
            have hne : id ≠ item.t.id :=
              fun hc => hforeign item hitem hc.symm
            rw [a2 id hne]
            exact htzero id hforeign

/-- `computePlan` is the two passes from the initial state followed by
the per-day entry sort. -/
theorem computePlan_eq (tasks : List Task) (cfg : PlannerConfig)
    (today weekStart : ℤ) :
    computePlan tasks cfg today weekStart =
      (fillPass (planCap cfg) (plannerScored tasks today)
        (reservationPass (planCap cfg) ((plannerScored tasks today).take 3)
          (initState cfg weekStart))).days.map
        (fun d => { d with entries := sortByKeyDesc PlanEntry.score d.entries }) :=
  rfl

theorem enabledDaysOf_pos (studyDays : List ℕ) :
    0 < (enabledDaysOf studyDays).length := by
  unfold enabledDaysOf
  split
  · assumption
  · simp

theorem initState_cursor (cfg : PlannerConfig) (weekStart : ℤ) :
    (initState cfg weekStart).dayCursor < (initState cfg weekStart).days.length := by
  show 0 < (initDays cfg weekStart).length
  unfold initDays
  rw [List.length_map]
  exact enabledDaysOf_pos cfg.studyDays

theorem initState_sumTotal (cfg : PlannerConfig) (weekStart : ℤ) :
    sumTotal (initState cfg weekStart).days = 0 := by
  show sumTotal (initDays cfg weekStart) = 0
  unfold sumTotal initDays
  rw [List.map_map]
  exact List.sum_eq_zero (by simp)

theorem initState_daysHoursBy (p : PlanEntry → Bool) (cfg : PlannerConfig)
    (weekStart : ℤ) :
    daysHoursBy p (initState cfg weekStart).days = 0 := by
  show daysHoursBy p (initDays cfg weekStart) = 0
  unfold daysHoursBy initDays
  rw [List.map_map]
  exact List.sum_eq_zero (by simp [entryHoursBy])

theorem initState_FlagsOk (items : List ScoredItem) (cfg : PlannerConfig)
    (weekStart : ℤ) : FlagsOk items (initState cfg weekStart).days := by
  intro d hd x hx
  simp only [initState, initDays, List.mem_map] at hd
  obtain ⟨i, -, rfl⟩ := hd
  simp at hx

/-- Sorting entries inside each day does not change hours selected by
any predicate. -/
theorem entryHoursBy_sortByKeyDesc (p : PlanEntry → Bool)
    (l : List PlanEntry) :
    entryHoursBy p (sortByKeyDesc PlanEntry.score l) = entryHoursBy p l := by
  have hp := List.perm_insertionSort
    (fun a b => PlanEntry.score b ≤ PlanEntry.score a) l
  exact List.Perm.sum_eq ((hp.filter p).map PlanEntry.hours)

theorem daysHoursBy_sortDays (p : PlanEntry → Bool) (days : List PlanDay) :
    daysHoursBy p (days.map (fun d =>
      { d with entries := sortByKeyDesc PlanEntry.score d.entries })) =
      daysHoursBy p days := by
  unfold daysHoursBy
  rw [List.map_map]
  induction days with
  | nil => rfl
  | cons d ds ih =>
    simp only [List.map_cons, List.sum_cons, ih, Function.comp]
    rw [entryHoursBy_sortByKeyDesc]

theorem sumTotal_sortDays (days : List PlanDay) :
    sumTotal (days.map (fun d =>
      { d with entries := sortByKeyDesc PlanEntry.score d.entries })) =
      sumTotal days := by
  unfold sumTotal
  rw [List.map_map]
  rfl

/-- Claim C1: for every task list, configuration and reference dates,
the sum of `totalHours` over all plan days never exceeds
`clamp(1, round(hoursPerWeek), 80)`. -/
theorem computePlan_total_le_budget (tasks : List Task)
    (cfg : PlannerConfig) (today weekStart : ℤ) :
    sumTotal (computePlan tasks cfg today weekStart) ≤
      (clampI 1 (jsRound cfg.hoursPerWeek) 80).toNat := by
  rw [computePlan_eq, sumTotal_sortDays]
  obtain ⟨l1, c1, s1⟩ := reservationPass_conserve (planCap cfg)
    ((plannerScored tasks today).take 3) (initState cfg weekStart)
    (initState_cursor cfg weekStart)
  obtain ⟨l2, c2, s2⟩ := fillPass_conserve (planCap cfg)
    (plannerScored tasks today) _ c1
  have h0 := initState_sumTotal cfg weekStart
  have hb : (initState cfg weekStart).budget = planBudget cfg := rfl
  have := s2.trans s1
  rw [h0, hb] at this
  show sumTotal _ ≤ planBudget cfg
  omega

theorem scoreAll_ids (tasks : List Task) (today : ℤ) :
    (scoreAll tasks today).map (fun it => it.t.id) =
      (tasks.filter (fun t => t.status ≠ TaskStatus.done)).map Task.id := by
  unfold scoreAll
  rw [List.map_map]
  rfl

theorem plannerScored_perm (tasks : List Task) (today : ℤ) :
    (plannerScored tasks today).Perm (scoreAll tasks today) :=
  List.perm_insertionSort _ _

theorem plannerScored_ids_nodup (tasks : List Task) (today : ℤ)
    (hnodup : (tasks.map Task.id).Nodup) :
    ((plannerScored tasks today).map (fun it => it.t.id)).Nodup := by
  have h1 : ((scoreAll tasks today).map (fun it => it.t.id)).Nodup := by
    rw [scoreAll_ids]
    exact List.Nodup.sublist ((List.filter_sublist tasks).map Task.id) hnodup
  exact (((plannerScored_perm tasks today).map
    (fun it => it.t.id)).nodup_iff).mpr h1

theorem scoreAll_mem_elim {tasks : List Task} {today : ℤ} {it : ScoredItem}
    (hit : it ∈ scoreAll tasks today) :
    ∃ t ∈ tasks, t.status ≠ TaskStatus.done ∧
      it = { t := t, s := scoreTask t today
             hoursNeeded := (estimateHours t.weight t.difficulty).toNat
             overdue := isTaskOverdue t.dueDate today } := by
  unfold scoreAll at hit
  rw [List.mem_map] at hit
  obtain ⟨t, htf, rfl⟩ := hit
  rw [List.mem_filter] at htf
  exact ⟨t, htf.1, by simpa using htf.2, rfl⟩

theorem plannerScored_need_pos (tasks : List Task) (today : ℤ) :
    ∀ it ∈ plannerScored tasks today, 1 ≤ it.hoursNeeded := by
  intro it hit
  obtain ⟨t, -, -, rfl⟩ :=
    scoreAll_mem_elim ((plannerScored_perm tasks today).subset hit)
  show 1 ≤ (estimateHours t.weight t.difficulty).toNat
  have h1 : (1 : ℤ) ≤ estimateHours t.weight t.difficulty := le_max_left 1 _
  omega

theorem plannerScored_inj (tasks : List Task) (today : ℤ)
    (hnodup : (tasks.map Task.id).Nodup) :
    ∀ it1 ∈ plannerScored tasks today, ∀ it2 ∈ plannerScored tasks today,
      it1.t.id = it2.t.id → it1 = it2 :=
  fun it1 h1 it2 h2 he =>
    List.inj_on_of_nodup_map (plannerScored_ids_nodup tasks today hnodup)
      h1 h2 he

theorem plannerScored_foreign (tasks : List Task) (today : ℤ)
    (hnodup : (tasks.map Task.id).Nodup) :
    ∀ t ∈ tasks, t.status = TaskStatus.done →
      ∀ it ∈ plannerScored tasks today, it.t.id ≠ t.id := by
  intro t ht hdone it hit he
  obtain ⟨u, hu, huact, rfl⟩ :=
    scoreAll_mem_elim ((plannerScored_perm tasks today).subset hit)
  have : u = t := List.inj_on_of_nodup_map hnodup hu ht he
  rw [this] at huact
  exact huact hdone

/-- The chained pass invariants for a whole `computePlan` run with
unique task ids. -/
theorem computePlan_inv (tasks : List Task) (cfg : PlannerConfig)
    (today weekStart : ℤ) (hnodup : (tasks.map Task.id).Nodup) :
    (∀ c, planCap cfg = some c →
      overdueHours (fillPass (planCap cfg) (plannerScored tasks today)
        (reservationPass (planCap cfg) ((plannerScored tasks today).take 3)
          (initState cfg weekStart))).days ≤ c) ∧
    (∀ id, taskHours id (fillPass (planCap cfg) (plannerScored tasks today)
        (reservationPass (planCap cfg) ((plannerScored tasks today).take 3)
          (initState cfg weekStart))).days ≤
      (fillPass (planCap cfg) (plannerScored tasks today)
        (reservationPass (planCap cfg) ((plannerScored tasks today).take 3)
          (initState cfg weekStart))).allocatedByTask id) ∧
    (∀ it ∈ plannerScored tasks today,
      (fillPass (planCap cfg) (plannerScored tasks today)
        (reservationPass (planCap cfg) ((plannerScored tasks today).take 3)
          (initState cfg weekStart))).allocatedByTask it.t.id ≤
        it.hoursNeeded) ∧
    (∀ id, (∀ it ∈ plannerScored tasks today, it.t.id ≠ id) →
      (fillPass (planCap cfg) (plannerScored tasks today)
        (reservationPass (planCap cfg) ((plannerScored tasks today).take 3)
          (initState cfg weekStart))).allocatedByTask id = 0) := by
  have hinj := plannerScored_inj tasks today hnodup
  have hneed1 := plannerScored_need_pos tasks today
  have hcur0 := initState_cursor cfg weekStart
  obtain ⟨f1, o1, cb1, ts1, tn1, tz1⟩ :=
    reservationPass_inv (planCap cfg) (plannerScored tasks today) hinj hneed1
      ((plannerScored tasks today).take 3) (initState cfg weekStart)
      (fun x hx => List.mem_of_mem_take hx) hcur0
      (initState_FlagsOk _ cfg weekStart)
      (by unfold overdueHours; rw [initState_daysHoursBy]; exact Nat.le_refl 0)
      (fun c _ => Nat.zero_le c)
      (fun id => by unfold taskHours; rw [initState_daysHoursBy]; exact Nat.zero_le _)
      (fun it _ => Nat.zero_le _)
      (fun id _ => rfl)
  obtain ⟨-, c1, -⟩ := reservationPass_conserve (planCap cfg)
    ((plannerScored tasks today).take 3) (initState cfg weekStart) hcur0
  obtain ⟨f2, o2, cb2, ts2, tn2, tz2⟩ :=
    fillPass_inv (planCap cfg) (plannerScored tasks today) hinj hneed1
      (plannerScored tasks today) _ (fun x hx => hx) c1 f1 o1 cb1 ts1 tn1 tz1
  exact ⟨fun c hc => le_trans o2 (cb2 c hc), ts2, tn2, tz2⟩

/-- Claim C2: when overdue capping is enabled and task ids are unique
(the data model requires ids to be unique identifiers), the total hours
carried by overdue entries across the plan never exceed
`floor(budget * 0.6)`; moreover the single-hour placement step preserves
the bound on the overdue counter, so the bound holds after every
placement, not only at the end. -/
theorem computePlan_overdue_capped (tasks : List Task) (cfg : PlannerConfig)
    (today weekStart : ℤ) (hnodup : (tasks.map Task.id).Nodup)
    (hcapOn : cfg.capOverdue = true) :
    overdueHours (computePlan tasks cfg today weekStart) ≤
      (⌊((clampI 1 (jsRound cfg.hoursPerWeek) 80).toNat : ℚ) * (6 / 10)⌋).toNat ∧
    (∀ (c : ℕ) (item : ScoredItem) (st : AllocState),
      canAllocateOverdue (some c) st.overdueAllocated item.overdue = true →
      st.overdueAllocated ≤ c → (placeOne item st).overdueAllocated ≤ c) := by
  constructor
  · rw [computePlan_eq]
    unfold overdueHours
    rw [daysHoursBy_sortDays]
    obtain ⟨hov, -, -, -⟩ := computePlan_inv tasks cfg today weekStart hnodup
    exact hov _ (by simp [planCap, hcapOn]; rfl)
  · intro c item st hca hle
    rw [placeOne_overdueAllocated]
    cases ho : item.overdue
    · simpa using hle
    · have := canAllocateOverdue_some_of_overdue (ho ▸ hca)
      simpa using this

/-- Claim C8: with unique task ids, the hours a single task receives
across a whole plan never exceed its `estimateHours`, hence never
exceed 10. -/
theorem computePlan_per_task (tasks : List Task) (cfg : PlannerConfig)
    (today weekStart : ℤ) (hnodup : (tasks.map Task.id).Nodup) :
    ∀ t ∈ tasks,
      taskHours t.id (computePlan tasks cfg today weekStart) ≤
        (estimateHours t.weight t.difficulty).toNat ∧
      (estimateHours t.weight t.difficulty).toNat ≤ 10 := by
  intro t ht
  have h10 : (estimateHours t.weight t.difficulty).toNat ≤ 10 := by
    have : estimateHours t.weight t.difficulty ≤ 10 :=
      max_le (by norm_num) (min_le_left 10 _)
    omega
  refine ⟨?_, h10⟩
  rw [computePlan_eq]
  unfold taskHours
  rw [daysHoursBy_sortDays]
  obtain ⟨-, ts2, tn2, tz2⟩ := computePlan_inv tasks cfg today weekStart hnodup
  by_cases hdone : t.status = TaskStatus.done
  · have h0 := tz2 t.id (plannerScored_foreign tasks today hnodup t ht hdone)
    have := ts2 t.id
    unfold taskHours at this
    omega
  · have hmem : (⟨t, scoreTask t today,
        (estimateHours t.weight t.difficulty).toNat,
        isTaskOverdue t.dueDate today⟩ : ScoredItem) ∈
        plannerScored tasks today := by
      refine (plannerScored_perm tasks today).symm.subset ?_
      unfold scoreAll
      exact List.mem_map_of_mem _ (List.mem_filter.mpr ⟨ht, by simpa using hdone⟩)
    have hb := tn2 _ hmem
    have := ts2 t.id
    unfold taskHours at this
    exact le_trans this hb

/-- Claim C3 counterexample: with an empty `studyDays`, one active task
and one budget hour, the plan is not all-empty: the code treats an empty
`studyDays` as "all seven days enabled" and allocates normally, so the
first day receives an hour. -/
theorem computePlan_emptyStudyDays_cex :
    ¬ (∀ d ∈ computePlan
        [⟨"a", "c", "cn", "t", none, 50, 3, TaskStatus.not_started⟩]
        { hoursPerWeek := 1, studyDays := [], capOverdue := false } 0 0,
        d.totalHours = 0 ∧ d.entries = []) := by
  have hh : (estimateHours 50 3).toNat = 10 := by
    unfold estimateHours
    rw [show jsRound ((50 : ℚ) * 3 / 10) = 15 from by norm_num [jsRound]]
    decide
  have hb : planBudget
      { hoursPerWeek := 1, studyDays := [], capOverdue := false } = 1 := by
    unfold planBudget
    rw [show jsRound (1 : ℚ) = 1 from by norm_num [jsRound]]
    decide
  have hsc : plannerScored
      [⟨"a", "c", "cn", "t", none, 50, 3, TaskStatus.not_started⟩] 0 =
      [⟨⟨"a", "c", "cn", "t", none, 50, 3, TaskStatus.not_started⟩,
        scoreTask ⟨"a", "c", "cn", "t", none, 50, 3, TaskStatus.not_started⟩ 0,
        10, false⟩] := by
    rw [← hh]
    rfl
  have hinit : initState
      { hoursPerWeek := 1, studyDays := [], capOverdue := false } 0 =
      ⟨initDays { hoursPerWeek := 1, studyDays := [], capOverdue := false } 0,
        1, 0, fun _ => 0, 0⟩ := by
    unfold initState
    rw [hb]
  have hmap : (computePlan
      [⟨"a", "c", "cn", "t", none, 50, 3, TaskStatus.not_started⟩]
      { hoursPerWeek := 1, studyDays := [], capOverdue := false } 0 0).map
        PlanDay.totalHours = [1, 0, 0, 0, 0, 0, 0] := by
    rw [computePlan_eq, hsc, hinit]
    rfl
  intro hall
  have h1 : (1 : ℕ) ∈ (computePlan
      [⟨"a", "c", "cn", "t", none, 50, 3, TaskStatus.not_started⟩]
      { hoursPerWeek := 1, studyDays := [], capOverdue := false } 0 0).map
        PlanDay.totalHours := by
    rw [hmap]
    exact List.mem_cons_self 1 _
  rw [List.mem_map] at h1
  obtain ⟨d, hd, hd1⟩ := h1
  have h0 := (hall d hd).1
  rw [h0] at hd1
  exact absurd hd1 (by decide)

/-- Claim C3 as amended: with an empty `studyDays` the plan computation
treats all seven weekdays as enabled and returns 7 plan days without
failing; the days all have `totalHours = 0` and no entries exactly when
there is no active task (with active tasks the normal allocation
fills them). -/
theorem computePlan_emptyStudyDays (tasks : List Task) (hpw : ℚ)
    (cap : Bool) (today weekStart : ℤ) :
    (computePlan tasks
      { hoursPerWeek := hpw, studyDays := [], capOverdue := cap }
      today weekStart).length = 7 ∧
    (tasks.filter (fun t => t.status ≠ TaskStatus.done) = [] →
      ∀ d ∈ computePlan tasks
        { hoursPerWeek := hpw, studyDays := [], capOverdue := cap }
        today weekStart, d.totalHours = 0 ∧ d.entries = []) := by
  constructor
  · rw [computePlan_eq, List.length_map]
    have hcur0 := initState_cursor
      { hoursPerWeek := hpw, studyDays := [], capOverdue := cap } weekStart
    obtain ⟨l1, c1, -⟩ := reservationPass_conserve _ _ _ hcur0
    obtain ⟨l2, -, -⟩ := fillPass_conserve _ _ _ c1
    rw [l2, l1]
    show (initDays _ weekStart).length = 7
    unfold initDays
    rw [List.length_map]
    rfl
  · intro hemp d hd
    rw [computePlan_eq] at hd
    unfold plannerScored scoreAll at hd
    rw [hemp] at hd
    simp only [List.map_nil] at hd
    rw [show sortByKeyDesc ScoredItem.s [] = [] from rfl] at hd
    rw [show List.take 3 ([] : List ScoredItem) = [] from rfl] at hd
    rw [show ∀ cp st, reservationPass cp [] st = st from fun _ _ => rfl] at hd
    rw [show ∀ cp st, fillPass cp [] st = st from fun _ _ => rfl] at hd
    rw [List.mem_map] at hd
    obtain ⟨d0, hd0, rfl⟩ := hd
    simp only [initState, initDays, List.mem_map] at hd0
    obtain ⟨i, -, rfl⟩ := hd0
    exact ⟨rfl, rfl⟩

/-- Claim C3 witness for the amended statement: a concrete input with an
empty `studyDays` and a single already-done task gives seven empty
days. -/
theorem computePlan_emptyStudyDays_witness :
    (computePlan [⟨"a", "c", "cn", "t", none, 50, 3, TaskStatus.done⟩]
      { hoursPerWeek := 1, studyDays := [], capOverdue := false }
      0 0).length = 7 ∧
    ∀ d ∈ computePlan [⟨"a", "c", "cn", "t", none, 50, 3, TaskStatus.done⟩]
      { hoursPerWeek := 1, studyDays := [], capOverdue := false } 0 0,
      d.totalHours = 0 ∧ d.entries = [] :=
  ⟨(computePlan_emptyStudyDays
      [⟨"a", "c", "cn", "t", none, 50, 3, TaskStatus.done⟩] 1 false 0 0).1,
   (computePlan_emptyStudyDays
      [⟨"a", "c", "cn", "t", none, 50, 3, TaskStatus.done⟩] 1 false 0 0).2
     (by decide)⟩

/-- Claim C9 counterexample: with the Planner's overdue capping enabled
(its default), an overdue task is capped to 6 of 10 budget hours in the
Planner while the Dashboard's `plannedThisWeek`, which has no cap logic,
counts all 10, so the two totals differ. -/
theorem dashboard_vs_planner_cex :
    plannedThisWeek
        [⟨"o", "c", "cn", "t", some 9, 80, 4, TaskStatus.not_started⟩]
        10 [0, 1, 2, 3, 4, 5, 6] 10 ≠
      sumTotal (computePlan
        [⟨"o", "c", "cn", "t", some 9, 80, 4, TaskStatus.not_started⟩]
        { hoursPerWeek := 10, studyDays := [0, 1, 2, 3, 4, 5, 6], capOverdue := true }
        10 7) := by
  have hh : (estimateHours 80 4).toNat = 10 := by
    unfold estimateHours
    rw [show jsRound ((80 : ℚ) * 4 / 10) = 32 from by norm_num [jsRound]]
    decide
  have hbI : (clampI 1 (jsRound (10 : ℚ)) 80).toNat = 10 := by
    rw [show jsRound (10 : ℚ) = 10 from by norm_num [jsRound]]
    decide
  have hb : planBudget
      { hoursPerWeek := 10, studyDays := [0, 1, 2, 3, 4, 5, 6], capOverdue := true } =
      10 := hbI
  have hcap : planCap
      { hoursPerWeek := 10, studyDays := [0, 1, 2, 3, 4, 5, 6], capOverdue := true } =
      some 6 := by
    unfold planCap
    rw [if_pos rfl, hb]
    rw [show ⌊((10 : ℕ) : ℚ) * (6 / 10)⌋ = (6 : ℤ) from by norm_num]
    rfl
  have hsc : plannerScored
      [⟨"o", "c", "cn", "t", some 9, 80, 4, TaskStatus.not_started⟩] 10 =
      [⟨⟨"o", "c", "cn", "t", some 9, 80, 4, TaskStatus.not_started⟩,
        scoreTask ⟨"o", "c", "cn", "t", some 9, 80, 4,
          TaskStatus.not_started⟩ 10, 10, true⟩] := by
    rw [← hh]
    rfl
  have hinit : initState
      { hoursPerWeek := 10, studyDays := [0, 1, 2, 3, 4, 5, 6], capOverdue := true } 7 =
      ⟨initDays
        { hoursPerWeek := 10, studyDays := [0, 1, 2, 3, 4, 5, 6], capOverdue := true } 7,
        10, 0, fun _ => 0, 0⟩ := by
    unfold initState
    rw [hb]
  have hplanner : sumTotal (computePlan
      [⟨"o", "c", "cn", "t", some 9, 80, 4, TaskStatus.not_started⟩]
      { hoursPerWeek := 10, studyDays := [0, 1, 2, 3, 4, 5, 6], capOverdue := true }
      10 7) = 6 := by
    rw [computePlan_eq, hsc, hinit, hcap]
    rfl
  have hdsc : sortByKeyDesc DashItem.s
      ((([⟨"o", "c", "cn", "t", some 9, 80, 4, TaskStatus.not_started⟩]).filter
        (fun t => t.status ≠ TaskStatus.done)).map (fun t =>
          { t := t, s := scoreTask t 10
            hoursNeeded := (estimateHours t.weight t.difficulty).toNat })) =
      [⟨⟨"o", "c", "cn", "t", some 9, 80, 4, TaskStatus.not_started⟩,
        scoreTask ⟨"o", "c", "cn", "t", some 9, 80, 4,
          TaskStatus.not_started⟩ 10, 10⟩] := by
    rw [← hh]
    rfl
  have hdash : plannedThisWeek
      [⟨"o", "c", "cn", "t", some 9, 80, 4, TaskStatus.not_started⟩]
      10 [0, 1, 2, 3, 4, 5, 6] 10 = 10 := by
    simp only [plannedThisWeek]
    rw [hdsc, hbI]
    rfl
  rw [hplanner, hdash]
  decide

theorem map_orderedInsert_key {α β : Type} (f : α → β) (keyA : α → ℚ)
    (keyB : β → ℚ) (hk : ∀ a, keyB (f a) = keyA a) (a : α) (l : List α) :
    (List.orderedInsert (fun x y => keyA y ≤ keyA x) a l).map f =
      List.orderedInsert (fun x y => keyB y ≤ keyB x) (f a) (l.map f) := by
  induction l with
  | nil => rfl
  | cons x xs ih =>
    simp only [List.orderedInsert, List.map_cons]
    by_cases h : keyA x ≤ keyA a
    · rw [if_pos h, if_pos (by rw [hk, hk]; exact h)]
      rfl
    · rw [if_neg h, if_neg (by rw [hk, hk]; exact h), List.map_cons, ih]

/-- Mapping a key-preserving function commutes with the stable
descending sort. -/
theorem map_sortByKeyDesc {α β : Type} (f : α → β) (keyA : α → ℚ)
    (keyB : β → ℚ) (hk : ∀ a, keyB (f a) = keyA a) (l : List α) :
    (sortByKeyDesc keyA l).map f = sortByKeyDesc keyB (l.map f) := by
  unfold sortByKeyDesc
  induction l with
  | nil => rfl
  | cons x xs ih =>
    simp only [List.insertionSort, List.map_cons]
    rw [← ih]
    exact map_orderedInsert_key f keyA keyB hk x _

/-- The Dashboard reservation loop simulates the Planner reservation
pass when the overdue cap is off: budgets, per-task records and the
running total (against the Planner's placed hours) stay equal. -/
theorem dashReservation_sim (dayCount : ℕ) (l : List ScoredItem) :
    ∀ (st : AllocState) (dst : DashState),
      st.dayCursor < st.days.length →
      dst.budget = st.budget →
      (∀ id, dst.allocatedByTask id = st.allocatedByTask id) →
      dst.total = sumTotal st.days →
      (dashReservation dayCount (l.map (fun it =>
          (⟨it.t, it.s, it.hoursNeeded⟩ : DashItem))) dst).budget =
        (reservationPass none l st).budget ∧
      (∀ id, (dashReservation dayCount (l.map (fun it =>
          (⟨it.t, it.s, it.hoursNeeded⟩ : DashItem))) dst).allocatedByTask id =
        (reservationPass none l st).allocatedByTask id) ∧
      (dashReservation dayCount (l.map (fun it =>
          (⟨it.t, it.s, it.hoursNeeded⟩ : DashItem))) dst).total =
        sumTotal (reservationPass none l st).days ∧
      (reservationPass none l st).dayCursor <
        (reservationPass none l st).days.length := by
  induction l with
  | nil => exact fun st dst hcur hb ha ht => ⟨hb, ha, ht, hcur⟩
  | cons item rest ih =>
    intro st dst hcur hb ha ht
    rw [List.map_cons, dashReservation, reservationPass]
    dsimp only
    by_cases h0 : st.budget = 0
    · rw [if_pos h0, if_pos (hb.trans h0)]
      exact ⟨hb, ha, ht, hcur⟩
    · rw [if_neg h0, if_neg (fun hc => h0 (hb.symm.trans hc)),
        if_neg (show ¬ ((!canAllocateOverdue none st.overdueAllocated
          item.overdue) = true) from by simp [canAllocateOverdue_none]),
        ha item.t.id]
      by_cases h1 : 1 ≤ st.allocatedByTask item.t.id
      · rw [if_pos h1, if_pos h1]
        exact ih st dst hcur hb ha ht
      · rw [if_neg h1, if_neg h1]
        obtain ⟨b1, a1, a2, s1, l1, c1⟩ := allocateHours_nocap item 1 st hcur
        refine ih _ _ c1 ?_ ?_ ?_
        · show dst.budget - 1 = _
          rw [b1, hb]
          omega
        · intro id
          show (if id = item.t.id then dst.allocatedByTask id + 1
            else dst.allocatedByTask id) = _
          by_cases hid : id = item.t.id
          · rw [if_pos hid, hid, a1, ha item.t.id]
            omega
          · rw [if_neg hid, a2 id hid, ha id]
        · show dst.total + 1 = _
          rw [s1, ht]
          omega

/-- The Dashboard fill loop simulates the Planner fill pass when the
overdue cap is off. -/
theorem dashFill_sim (dayCount : ℕ) (l : List ScoredItem) :
    ∀ (st : AllocState) (dst : DashState),
      st.dayCursor < st.days.length →
      dst.budget = st.budget →
      (∀ id, dst.allocatedByTask id = st.allocatedByTask id) →
      dst.total = sumTotal st.days →
      (dashFill dayCount (l.map (fun it =>
          (⟨it.t, it.s, it.hoursNeeded⟩ : DashItem))) dst).total =
        sumTotal (fillPass none l st).days := by
  induction l with
  | nil => exact fun st dst hcur hb ha ht => ht
  | cons item rest ih =>
    intro st dst hcur hb ha ht
    rw [List.map_cons, dashFill, fillPass]
    dsimp only
    by_cases h0 : st.budget = 0
    · rw [if_pos h0, if_pos (hb.trans h0)]
      exact ht
    · rw [if_neg h0, if_neg (fun hc => h0 (hb.symm.trans hc)),
        if_neg (show ¬ ((!canAllocateOverdue none st.overdueAllocated
          item.overdue) = true) from by simp [canAllocateOverdue_none]),
        ha item.t.id]
      by_cases hr : item.hoursNeeded - st.allocatedByTask item.t.id = 0
      · rw [if_pos hr, if_pos hr]
        exact ih st dst hcur hb ha ht
      · rw [if_neg hr, if_neg hr]
        obtain ⟨b1, a1, a2, s1, l1, c1⟩ := allocateHours_nocap item
          (min (item.hoursNeeded - st.allocatedByTask item.t.id) st.budget)
          st hcur
        have hmin : min (min (item.hoursNeeded -
            st.allocatedByTask item.t.id) st.budget) st.budget =
            min (item.hoursNeeded - st.allocatedByTask item.t.id) st.budget := by
          omega
        rw [hb]
        refine ih _ _ c1 ?_ ?_ ?_
        · show st.budget - _ = _
          rw [b1, hmin]
        · intro id
          show (if id = item.t.id then dst.allocatedByTask id + _
            else dst.allocatedByTask id) = _
          by_cases hid : id = item.t.id
          · rw [if_pos hid, hid, a1, ha item.t.id, hmin]
          · rw [if_neg hid, a2 id hid, ha id]
        · show dst.total + _ = _
          rw [s1, ht, hmin]

/-- Claim C9 as amended: when overdue capping is disabled, the
Dashboard's `plannedThisWeek` total equals the sum of `totalHours` over
the plan days produced by the Planner's allocator on the same task
list, weekly hours, study days and reference date (the two
implementations agree except for the Planner-only overdue cap). -/
theorem dashboard_matches_planner_uncapped (tasks : List Task) (hpw : ℚ)
    (studyDays : List ℕ) (today weekStart : ℤ) :
    plannedThisWeek tasks hpw studyDays today =
      sumTotal (computePlan tasks
        { hoursPerWeek := hpw, studyDays := studyDays, capOverdue := false }
        today weekStart) := by
  rw [computePlan_eq, sumTotal_sortDays]
  rw [show planCap
    { hoursPerWeek := hpw, studyDays := studyDays, capOverdue := false } =
    none from rfl]
  have hmap : sortByKeyDesc DashItem.s
      ((tasks.filter (fun t => t.status ≠ TaskStatus.done)).map (fun t =>
        { t := t, s := scoreTask t today
          hoursNeeded := (estimateHours t.weight t.difficulty).toNat })) =
      (plannerScored tasks today).map (fun it =>
        (⟨it.t, it.s, it.hoursNeeded⟩ : DashItem)) := by
    rw [show plannerScored tasks today =
      sortByKeyDesc ScoredItem.s (scoreAll tasks today) from rfl]
    rw [map_sortByKeyDesc (fun it : ScoredItem =>
      (⟨it.t, it.s, it.hoursNeeded⟩ : DashItem)) ScoredItem.s DashItem.s
      (fun a => rfl)]
    unfold scoreAll
    rw [List.map_map]
    rfl
  simp only [plannedThisWeek]
  rw [hmap, ← List.map_take]
  obtain ⟨b1, a1, t1, c1⟩ := dashReservation_sim
    (enabledDaysOf studyDays).length ((plannerScored tasks today).take 3)
    (initState
      { hoursPerWeek := hpw, studyDays := studyDays, capOverdue := false }
      weekStart)
    ⟨(clampI 1 (jsRound hpw) 80).toNat, fun _ => 0, 0, 0⟩
    (initState_cursor _ weekStart) rfl (fun id => rfl)
    (initState_sumTotal _ weekStart).symm
  exact dashFill_sim (enabledDaysOf studyDays).length
    (plannerScored tasks today) _ _ c1 b1 a1 t1

/-- Claim C4: the days-until-due value used by the scorer is the fixed
fallback 14 when the due date is absent; 3 when the calendar-day
difference `dueDate - today` is at most 0 (overdue or due today); and
otherwise that difference clamped to the interval [1, 365]. -/
theorem scorer_daysUntil_spec (dueDate : Option ℤ) (today : ℤ) :
    (dueDate = none → daysUntilForScore dueDate today = 14) ∧
    (∀ d, dueDate = some d → d - today ≤ 0 →
      daysUntilForScore dueDate today = 3) ∧
    (∀ d, dueDate = some d → 0 < d - today →
      daysUntilForScore dueDate today = clamp 1 ((d - today : ℤ) : ℚ) 365) := by
  refine ⟨fun h => ?_, fun d h hle => ?_, fun d h hpos => ?_⟩
  · subst h; rfl
  · subst h; simp [daysUntilForScore, hle]
  · subst h
    simp [daysUntilForScore, not_le.mpr hpos, (not_le.mpr hpos : ¬ d - today ≤ 0)]

/-- Claim C4 witness: the three cases of `scorer_daysUntil_spec` at
concrete inputs. -/
theorem scorer_daysUntil_spec_witness :
    daysUntilForScore none 0 = 14 ∧
    daysUntilForScore (some (-2)) 0 = 3 ∧
    daysUntilForScore (some 9) 0 = clamp 1 ((9 - 0 : ℤ) : ℚ) 365 :=
  ⟨(scorer_daysUntil_spec none 0).1 rfl,
   (scorer_daysUntil_spec (some (-2)) 0).2.1 (-2) rfl (by decide),
   (scorer_daysUntil_spec (some 9) 0).2.2 9 rfl (by decide)⟩

/-- Claim C5: `isTaskOverdue` holds exactly when a due date is present
and is strictly before `today` at day granularity; in particular a task
due today is not overdue. -/
theorem isTaskOverdue_iff (dueDate : Option ℤ) (today : ℤ) :
    (isTaskOverdue dueDate today = true ↔
      ∃ d, dueDate = some d ∧ d < today) ∧
    isTaskOverdue (some today) today = false := by
  constructor
  · constructor
    · intro h
      match dueDate with
      | none => simp [isTaskOverdue] at h
      | some d =>
        refine ⟨d, rfl, ?_⟩
        simp only [isTaskOverdue, decide_eq_true_eq] at h
        omega
    · rintro ⟨d, rfl, hd⟩
      simp only [isTaskOverdue, decide_eq_true_eq]
      omega
  · simp [isTaskOverdue]

/-- Positivity facts used for the score monotonicity claim. -/
theorem daysUntilForScore_pos (dueDate : Option ℤ) (today : ℤ) :
    0 < daysUntilForScore dueDate today :=
  lt_of_lt_of_le one_pos (one_le_daysUntilForScore dueDate today)

/-- Claim C6: with weight in [0,100] and difficulty in [1,5], the score
is non-decreasing in weight (difficulty and due date fixed),
non-decreasing in difficulty (weight and due date fixed), and
non-increasing in the days-until-due value. -/
theorem score_monotone :
    (∀ (t1 t2 : Task) (today : ℤ),
      0 ≤ t1.weight → t1.weight ≤ 100 → 0 ≤ t2.weight → t2.weight ≤ 100 →
      1 ≤ t1.difficulty → t1.difficulty ≤ 5 →
      t1.difficulty = t2.difficulty → t1.dueDate = t2.dueDate →
      t1.weight ≤ t2.weight → scoreTask t1 today ≤ scoreTask t2 today) ∧
    (∀ (t1 t2 : Task) (today : ℤ),
      0 ≤ t1.weight → t1.weight ≤ 100 →
      1 ≤ t1.difficulty → t1.difficulty ≤ 5 →
      1 ≤ t2.difficulty → t2.difficulty ≤ 5 →
      t1.weight = t2.weight → t1.dueDate = t2.dueDate →
      t1.difficulty ≤ t2.difficulty → scoreTask t1 today ≤ scoreTask t2 today) ∧
    (∀ (w d n1 n2 : ℚ),
      0 ≤ w → w ≤ 100 → 1 ≤ d → d ≤ 5 → 1 ≤ n1 → n1 ≤ n2 →
      scoreVal w d n2 ≤ scoreVal w d n1) := by
  have hval : ∀ (w d n : ℚ), 1 ≤ d → scoreVal w d n = w * d * (1 / n) := by
    intro w d n hd
    unfold scoreVal
    rw [jsOr_zero, jsOr_of_ne]
    intro h; rw [h] at hd; norm_num at hd
  refine ⟨?_, ?_, ?_⟩
  · intro t1 t2 today hw10 hw11 hw20 hw21 hd0 hd1 hdeq hdue hle
    unfold scoreTask
    rw [hdue, hval _ _ _ hd0, hval _ _ _ (hdeq ▸ hd0), ← hdeq]
    have hn : (0:ℚ) ≤ 1 / daysUntilForScore t2.dueDate today :=
      le_of_lt (one_div_pos.mpr (daysUntilForScore_pos t2.dueDate today))
    have hd0' : (0:ℚ) ≤ t1.difficulty := le_trans zero_le_one hd0
    exact mul_le_mul_of_nonneg_right (mul_le_mul_of_nonneg_right hle hd0') hn
  · intro t1 t2 today hw0 hw1 hd10 hd11 hd20 hd21 hweq hdue hle
    unfold scoreTask
    rw [hdue, hval _ _ _ hd10, hval _ _ _ hd20, ← hweq]
    have hn : (0:ℚ) ≤ 1 / daysUntilForScore t2.dueDate today :=
      le_of_lt (one_div_pos.mpr (daysUntilForScore_pos t2.dueDate today))
    exact mul_le_mul_of_nonneg_right (mul_le_mul_of_nonneg_left hle hw0) hn
  · intro w d n1 n2 hw0 hw1 hd0 hd1 hn1 hle
    rw [hval _ _ _ hd0, hval _ _ _ hd0]
    have h1 : 1 / n2 ≤ 1 / n1 :=
      one_div_le_one_div_of_le (lt_of_lt_of_le one_pos hn1) hle
    have hwd : (0:ℚ) ≤ w * d := mul_nonneg hw0 (le_trans zero_le_one hd0)
    exact mul_le_mul_of_nonneg_left h1 hwd

/-- Claim C6 witness: the three monotonicity conjuncts at concrete
tasks and values. -/
theorem score_monotone_witness :
    scoreTask { id := "a", courseId := "c", courseName := "n", title := "t",
                dueDate := none, weight := 10, difficulty := 2,
                status := TaskStatus.not_started } 0 ≤
      scoreTask { id := "a", courseId := "c", courseName := "n", title := "t",
                  dueDate := none, weight := 20, difficulty := 2,
                  status := TaskStatus.not_started } 0 ∧
    scoreTask { id := "a", courseId := "c", courseName := "n", title := "t",
                dueDate := some 3, weight := 10, difficulty := 2,
                status := TaskStatus.not_started } 0 ≤
      scoreTask { id := "a", courseId := "c", courseName := "n", title := "t",
                  dueDate := some 3, weight := 10, difficulty := 4,
                  status := TaskStatus.not_started } 0 ∧
    scoreVal 10 2 20 ≤ scoreVal 10 2 5 :=
  ⟨score_monotone.1 _ _ 0 (by norm_num) (by norm_num) (by norm_num)
    (by norm_num) (by norm_num) (by norm_num) rfl rfl (by norm_num),
   score_monotone.2.1 _ _ 0 (by norm_num) (by norm_num) (by norm_num)
    (by norm_num) (by norm_num) (by norm_num) rfl rfl (by norm_num),
   score_monotone.2.2 10 2 5 20 (by norm_num) (by norm_num) (by norm_num)
    (by norm_num) (by norm_num) (by norm_num)⟩

/-- Claim C7: for weight in [0,100] and difficulty in [1,5],
`estimateHours` is `round(weight * difficulty / 10)` clamped to [1,10],
and its result lies in [1,10]. -/
theorem estimateHours_spec (w d : ℚ)
    (hw0 : 0 ≤ w) (hw1 : w ≤ 100) (hd0 : 1 ≤ d) (hd1 : d ≤ 5) :
    estimateHours w d = clampI 1 (jsRound (w * d / 10)) 10 ∧
    1 ≤ estimateHours w d ∧ estimateHours w d ≤ 10 := by
  refine ⟨rfl, le_max_left 1 _, ?_⟩
  exact max_le (by norm_num) (min_le_left 10 _)

/-- Claim C7 witness: `estimateHours` at weight 100 and difficulty 5. -/
theorem estimateHours_spec_witness :
    estimateHours 100 5 = clampI 1 (jsRound (100 * 5 / 10)) 10 ∧
    1 ≤ estimateHours 100 5 ∧ estimateHours 100 5 ≤ 10 :=
  estimateHours_spec 100 5 (by norm_num) (by norm_num) (by norm_num)
    (by norm_num)

/-- Claim C10: the plan computation is deterministic; it is a pure
function of the task list, the configuration, the reference date and
the week start, so identical inputs give identical plans. -/
theorem computePlan_deterministic (tasks1 tasks2 : List Task)
    (cfg1 cfg2 : PlannerConfig) (today1 today2 weekStart1 weekStart2 : ℤ)
    (ht : tasks1 = tasks2) (hc : cfg1 = cfg2) (hd : today1 = today2)
    (hw : weekStart1 = weekStart2) :
    computePlan tasks1 cfg1 today1 weekStart1 =
      computePlan tasks2 cfg2 today2 weekStart2 := by
  subst ht; subst hc; subst hd; subst hw; rfl

/-- Claim C10 witness: determinism at a concrete input. -/
theorem computePlan_deterministic_witness :
    computePlan [] { hoursPerWeek := 10, studyDays := [], capOverdue := true } 0 0 =
      computePlan [] { hoursPerWeek := 10, studyDays := [], capOverdue := true } 0 0 :=
  computePlan_deterministic [] [] _ _ 0 0 0 0 rfl rfl rfl rfl

/-- Claim C2 witness: the overdue cap bound at a concrete input (one
overdue task, ten budget hours, capping on). -/
theorem computePlan_overdue_capped_witness :
    overdueHours (computePlan
      [⟨"o", "c", "cn", "t", some 9, 80, 4, TaskStatus.not_started⟩]
      { hoursPerWeek := 10, studyDays := [0, 1, 2, 3, 4, 5, 6],
        capOverdue := true } 10 7) ≤
      (⌊((clampI 1 (jsRound (10 : ℚ)) 80).toNat : ℚ) * (6 / 10)⌋).toNat ∧
    (∀ (c : ℕ) (item : ScoredItem) (st : AllocState),
      canAllocateOverdue (some c) st.overdueAllocated item.overdue = true →
      st.overdueAllocated ≤ c → (placeOne item st).overdueAllocated ≤ c) :=
  computePlan_overdue_capped
    [⟨"o", "c", "cn", "t", some 9, 80, 4, TaskStatus.not_started⟩]
    { hoursPerWeek := 10, studyDays := [0, 1, 2, 3, 4, 5, 6],
      capOverdue := true } 10 7 (by decide) rfl

/-- Claim C8 witness: the per-task bound at a concrete input. -/
theorem computePlan_per_task_witness :
    taskHours "o" (computePlan
      [⟨"o", "c", "cn", "t", some 9, 80, 4, TaskStatus.not_started⟩]
      { hoursPerWeek := 10, studyDays := [0, 1, 2, 3, 4, 5, 6],
        capOverdue := true } 10 7) ≤ (estimateHours 80 4).toNat ∧
    (estimateHours 80 4).toNat ≤ 10 :=
  computePlan_per_task
    [⟨"o", "c", "cn", "t", some 9, 80, 4, TaskStatus.not_started⟩]
    { hoursPerWeek := 10, studyDays := [0, 1, 2, 3, 4, 5, 6],
      capOverdue := true } 10 7 (by decide)
    ⟨"o", "c", "cn", "t", some 9, 80, 4, TaskStatus.not_started⟩
    (List.mem_cons_self _ _)

end StudyCoach
